import Mathlib

/-!
Verification of the data-preparation pipeline of the "Who's That Pokémon?"
browser game (`src/App.tsx`).  JavaScript strings are modelled as lists of
Unicode code points (`List Nat`).  The regex character classes `\w`, `\s`
and `String.prototype.toLowerCase` are modelled on their ASCII fragment,
which covers every character the claims exercise.
-/

/-- Code points of a Lean string literal, for stating concrete examples. -/
def strToCodes (s : String) : List Nat := s.data.map Char.toNat

/-- JS regex `\w` (word character): `[A-Za-z0-9_]`. -/
def isWordCode (c : Nat) : Bool :=
  decide ((48 ≤ c ∧ c ≤ 57) ∨ (65 ≤ c ∧ c ≤ 90) ∨ c = 95 ∨ (97 ≤ c ∧ c ≤ 122))

/-- JS regex `[\s\n]` (ASCII fragment): tab through carriage return, and space. -/
def isSpaceCode (c : Nat) : Bool :=
  decide ((9 ≤ c ∧ c ≤ 13) ∨ c = 32)

/-- JS `String.prototype.toLowerCase`, ASCII fragment: `A`-`Z` shift to `a`-`z`. -/
def toLowerCode (c : Nat) : Nat :=
  if 65 ≤ c ∧ c ≤ 90 then c + 32 else c

/-- One step of `.replace(/[\s\n]/g, " ")`: a whitespace code point becomes a space. -/
def normChar (c : Nat) : Nat :=
  if isSpaceCode c then 32 else c

/-- The map `text.replace(/[\s\n]/g, " ")`: every whitespace character is replaced by a space. -/
def normalizeWs (s : List Nat) : List Nat := s.map normChar

/-- JS `String.prototype.replace` with a plain-string pattern: replace the
leftmost occurrence of `pat` by `rep`; if `pat` does not occur, return `s`
unchanged (an empty `pat` matches at position 0). -/
def replaceFirst : List Nat → List Nat → List Nat → List Nat
  | [], pat, rep => if pat = [] then rep else []
  | c :: r, pat, rep =>
      if (c :: r).take pat.length = pat then rep ++ (c :: r).drop pat.length
      else c :: replaceFirst r pat rep

/-- Worker for `_.split(text, /(?=\W+)/g)`: `cur` is the token being built;
a non-word character closes the current token and opens a new one. -/
def tokGo : List Nat → List Nat → List (List Nat)
  | cur, [] => [cur]
  | cur, c :: rest =>
      if isWordCode c then tokGo (cur ++ [c]) rest else cur :: tokGo [c] rest

/-- The tokenizer `_.split(text, /(?=\W+)/g)`: split before every non-word character
(a zero-width match at position 0 produces no leading empty token; the
empty string splits into `[""]`). -/
def jsSplitTokens : List Nat → List (List Nat)
  | [] => [[]]
  | c :: rest => tokGo [c] rest

/-- The form `c.replace(/\W+/g, "").toLowerCase()`: the stripped, lower-cased word form. -/
def stripLower (c : List Nat) : List Nat := (c.filter isWordCode).map toLowerCode

/-- The mask `_.repeat("_", 4)`: the fixed-length mask. -/
def mask4 : List Nat := [95, 95, 95, 95]

/-- The per-token body of the redaction map in `fetchGame`:
`clean = c.replace(/\W+/g, "").toLowerCase();`
`bannedWordSet.has(clean) ? c.toLowerCase().replace(clean, "____") : c`. -/
def maskToken (bannedWordSet : List (List Nat)) (c : List Nat) : List Nat :=
  let clean := stripLower c
  if clean ∈ bannedWordSet then replaceFirst (c.map toLowerCode) clean mask4 else c

/-- Split into tokens, mask each, and rejoin (`_.split(...).map(...).join("")`). -/
def maskStep (bannedWordSet : List (List Nat)) (text : List Nat) : List Nat :=
  ((jsSplitTokens text).map (maskToken bannedWordSet)).flatten

/-- The whole redaction of a flavor text:
`_.split(flavor, /(?=\W+)/g).map(...).join("").replace(/[\s\n]/g, " ")`. -/
def redact (bannedWordSet : List (List Nat)) (text : List Nat) : List Nat :=
  normalizeWs (maskStep bannedWordSet text)

/-! ## Generation data and the `generations` callback -/

/-- One entry of the `gameGenerations` constant. -/
structure GameGeneration where
  shortGame : String
  game : String
  maxDex : Nat
deriving DecidableEq, Repr

/-- The `gameGenerations` constant of `App.tsx`. -/
def gameGenerations : List GameGeneration :=
  [ { shortGame := "R & B", game := "Red and Blue", maxDex := 151 },
    { shortGame := "G & S", game := "Gold and Silver", maxDex := 251 },
    { shortGame := "R & S", game := "Ruby and Sapphire", maxDex := 386 },
    { shortGame := "D & P", game := "Diamond and Pearl", maxDex := 493 },
    { shortGame := "B & W", game := "Black and White", maxDex := 649 },
    { shortGame := "X & Y", game := "X and Y", maxDex := 721 },
    { shortGame := "S & M", game := "Sun and Moon", maxDex := 809 },
    { shortGame := "S & S", game := "Sword and Shield", maxDex := 905 },
    { shortGame := "S & V", game := "Scarlet and Violet", maxDex := 1025 } ]

/-- The `numeralLookup` constant. -/
def numeralLookup : List String :=
  ["I", "II", "III", "IV", "V", "VI", "VII", "VIII", "IX", "X"]

/-- The value `gameGenerations[i].maxDex`, with 0 for an out-of-range index
(mirroring the `?? 0` the source applies to the prior entry). -/
def maxDexAt (i : Nat) : Nat :=
  ((gameGenerations.get? i).map GameGeneration.maxDex).getD 0

/-- The record the `generations` callback returns for one included index. -/
structure GenInfo where
  generation : Option String
  shortGame : String
  game : String
  maxDex : Nat
  startId : Nat
  endId : Nat
  availableIds : List Nat
deriving DecidableEq, Repr

/-- The body of the `generations` map:
`prev = gameGenerations?.[genIdx - 1]; curr = gameGenerations[genIdx];`
`[startId, endId] = [(prev?.maxDex ?? 0) + 1, curr.maxDex];`
`availableIds = _.range(startId, endId + 1)`.
For `genIdx = 0` the JS index `-1` yields `undefined`, so `startId = 1`.
An out-of-range `genIdx` (which would throw in JS) is totalized with a
zero `curr`; no claim exercises it. -/
def genEntry (genIdx : Nat) : GenInfo :=
  let curr := (gameGenerations.get? genIdx).getD { shortGame := "", game := "", maxDex := 0 }
  let prevMax : Nat := if genIdx = 0 then 0 else maxDexAt (genIdx - 1)
  { generation := numeralLookup.get? genIdx
    shortGame := curr.shortGame
    game := curr.game
    maxDex := curr.maxDex
    startId := prevMax + 1
    endId := curr.maxDex
    availableIds := List.range' (prevMax + 1) (curr.maxDex + 1 - (prevMax + 1)) }

/-- The `generations` callback: map each included index to its range record. -/
def generations (includedGenerations : List Nat) : List GenInfo :=
  includedGenerations.map genEntry

/-! ## Settings, sampling, and the round generator -/

/-- The `settings` state object. -/
structure Settings where
  rounds : Nat
  pokemonPerRound : Nat
  includedGenerations : List Nat
deriving DecidableEq, Repr

/-- Swap two positions of a list (the in-range case of lodash's
`shuffleSelf` loop body; out-of-range indices leave the list unchanged,
and never arise). -/
def listSwap {α : Type} (l : List α) (i j : Nat) : List α :=
  if h : i < l.length ∧ j < l.length then
    (l.set i (l.get ⟨j, h.2⟩)).set j (l.get ⟨i, h.1⟩)
  else l

/-- The partial Fisher-Yates loop of lodash `shuffleSelf`: at step `i` the
element at `i` is swapped with the one at `i + baseRandom(i, lastIndex)`;
the random draw is supplied by the oracle `rand`, reduced modulo the number
of remaining positions so that the swap index lies in `[i, length)`. -/
def fySteps {α : Type} (rand : Nat → Nat) : Nat → Nat → List α → List α
  | _, 0, l => l
  | i, k + 1, l => fySteps rand (i + 1) k (listSwap l i (i + rand i % (l.length - i)))

/-- lodash `_.sampleSize(l, n)`: clamp `n` to the population size, run the
partial Fisher-Yates shuffle for that many steps, and keep that prefix. -/
def sampleSize {α : Type} (rand : Nat → Nat) (l : List α) (n : Nat) : List α :=
  (fySteps rand 0 (min n l.length) l).take (min n l.length)

/-- The pool `_(gens).flatMap("availableIds")` that `fetchGame` samples from. -/
def idPool (s : Settings) : List Nat :=
  (generations s.includedGenerations).flatMap GenInfo.availableIds

/-- The draw `ids = _(gens).flatMap("availableIds").sampleSize(total).value()` with
`total = settings.rounds * settings.pokemonPerRound`. -/
def sampledIds (rand : Nat → Nat) (s : Settings) : List Nat :=
  sampleSize rand (idPool s) (s.rounds * s.pokemonPerRound)

/-! ## Fetched records and the cleaning map -/

/-- One element of `flavor_text_entries`: its `language.name` tag and its text. -/
structure FlavorTextEntry where
  languageName : List Nat
  flavor_text : List Nat
deriving DecidableEq, Repr

/-- The merged `{...species, ...pokemon}` record, restricted to the fields
`fetchGame` reads. -/
structure ApiRecord where
  id : Nat
  name : List Nat
  flavor_text_entries : List FlavorTextEntry
  front_default : Option (List Nat)
deriving DecidableEq, Repr

/-- The `PokeData` interface. -/
structure PokeData where
  id : Nat
  name : List Nat
  flavor : List Nat
  sprite : Option (List Nat)
  revealed : Bool
deriving DecidableEq, Repr

/-- The lookup `_.find(s.flavor_text_entries, { language: { name: "en" } })`. -/
def findEnEntry (entries : List FlavorTextEntry) : Option FlavorTextEntry :=
  entries.find? (fun e => e.languageName == strToCodes ("en"))

/-- The body of `pokemonData.map<PokeData>`: pick the English flavor entry
(defaulting to the empty text), redact it, and build the `PokeData`. -/
def cleanRecord (bannedWordSet : List (List Nat)) (s : ApiRecord) : PokeData :=
  let flavorTextEntry := findEnEntry s.flavor_text_entries
  let flavor := redact bannedWordSet ((flavorTextEntry.map FlavorTextEntry.flavor_text).getD [])
  { id := s.id, name := s.name, flavor := flavor, sprite := s.front_default, revealed := false }

/-- The round generator `fetchGame`: sample the ids, fetch each merged record
through the API oracle `api`, and clean every record.  The network fetches
are modelled by the pure oracle; randomness by the `rand` oracle. -/
def fetchGame (rand : Nat → Nat) (api : Nat → ApiRecord)
    (bannedWordSet : List (List Nat)) (s : Settings) : List PokeData :=
  ((sampledIds rand s).map api).map (cleanRecord bannedWordSet)

/-- A concrete hidden entity (id 80), used as witness data. -/
def pokeA : PokeData := { id := 80, name := [], flavor := [], sprite := none, revealed := false }

/-- A concrete already-revealed entity (id 25), used as witness data. -/
def pokeB : PokeData := { id := 25, name := [], flavor := [], sprite := none, revealed := true }

/-- A concrete merged record with no English flavor-text entry, used as witness data. -/
def germanOnlyRecord : ApiRecord :=
  { id := 1, name := [],
    flavor_text_entries := [{ languageName := [100, 101], flavor_text := [98] }],
    front_default := none }

/-! ## Generation toggling and the reveal action -/

/-- The handler `toggleGeneration`: remove the index if present, else append it, then
`_(newGens).sort()` (numeric order; on the single-digit indices the UI
passes, JS's lexicographic default sort coincides with numeric order). -/
def toggleGeneration (included : List Nat) (index : Nat) : List Nat :=
  let newGens := if index ∈ included then included.filter (fun i => i != index) else included ++ [index]
  List.insertionSort (fun a b => a ≤ b) newGens

/-- The toggle as reachable through the UI: the checkbox of the only
remaining included generation is `disabled`
(`includedGenerations.length === 1 && includedGenerations.includes(index)`),
so clicking it leaves the settings unchanged. -/
def uiToggleGeneration (included : List Nat) (index : Nat) : List Nat :=
  if included.length = 1 ∧ index ∈ included then included
  else toggleGeneration included index

/-- Settings states reachable from the default
`includedGenerations: [0, 1, 2, 3, 4, 5, 6, 7, 8]` by UI toggles. -/
inductive ReachableGens : List Nat → Prop
  | start : ReachableGens [0, 1, 2, 3, 4, 5, 6, 7, 8]
  | toggle (g : List Nat) (i : Nat) : ReachableGens g → ReachableGens (uiToggleGeneration g i)

/-- The "Reveal Answer" click handler: set `revealed := true` on the first
entity whose `id` matches (`data.findIndex(item => item.id === p.id)`
followed by an index update), leaving every other entry untouched. -/
def reveal : List PokeData → Nat → List PokeData
  | [], _ => []
  | e :: rest, pid =>
      if e.id = pid then { e with revealed := true } :: rest
      else e :: reveal rest pid

/-! ## Character-class facts -/

theorem word_not_space {c : Nat} (h : isWordCode c = true) : isSpaceCode c = false := by
  simp [isWordCode, isSpaceCode] at h ⊢; omega

theorem toLower_word (c : Nat) : isWordCode (toLowerCode c) = isWordCode c := by
  unfold toLowerCode
  split
  · rename_i h
    simp only [isWordCode, decide_eq_decide]
    omega
  · rfl

theorem toLower_nonword {c : Nat} (h : isWordCode c = false) : toLowerCode c = c := by
  simp [isWordCode] at h
  simp [toLowerCode]
  omega

theorem normChar_word (c : Nat) : isWordCode (normChar c) = isWordCode c := by
  simp [normChar]
  split
  · rename_i hs
    simp [isSpaceCode] at hs
    simp [isWordCode]
    omega
  · rfl

theorem normChar_of_word {c : Nat} (h : isWordCode c = true) : normChar c = c := by
  simp [normChar, word_not_space h]

theorem normChar_idem (c : Nat) : normChar (normChar c) = normChar c := by
  by_cases hs : isSpaceCode c = true
  · have h1 : normChar c = 32 := by unfold normChar; rw [if_pos hs]
    rw [h1]
    decide
  · have h1 : normChar c = c := by unfold normChar; rw [if_neg hs]
    rw [h1]
    exact h1

theorem normChar_not_newline (c : Nat) : normChar c ≠ 10 := by
  unfold normChar
  split
  · omega
  · rename_i hs
    simp [isSpaceCode] at hs
    omega

theorem normChar_space_eq {c : Nat} (h : isSpaceCode (normChar c) = true) : normChar c = 32 := by
  by_cases hs : isSpaceCode c = true
  · unfold normChar
    rw [if_pos hs]
  · rw [normChar, if_neg hs] at h
    exact absurd h hs

/-- All characters of a token after its head are word characters. -/
def WordTail (w : List Nat) : Prop := ∀ x ∈ w, isWordCode x = true

theorem wordTail_map_toLower {w : List Nat} (h : WordTail w) :
    WordTail (w.map toLowerCode) := by
  intro x hx
  rcases List.mem_map.1 hx with ⟨y, hy, rfl⟩
  rw [toLower_word]
  exact h y hy

theorem wordTail_norm_fix {w : List Nat} (h : WordTail w) : w.map normChar = w := by
  induction w with
  | nil => rfl
  | cons a t ih =>
      have ha := h a (List.mem_cons_self a t)
      simp [normChar_of_word ha, ih (fun x hx => h x (List.mem_cons_of_mem a hx))]

/-! ## `replaceFirst` facts -/

theorem replaceFirst_self (s rep : List Nat) : replaceFirst s s rep = rep := by
  cases s with
  | nil => simp [replaceFirst]
  | cons c r =>
      rw [replaceFirst]
      simp [List.take_length, List.drop_length]

theorem replaceFirst_cons_ne {c p0 : Nat} (r p1 rep : List Nat) (h : c ≠ p0) :
    replaceFirst (c :: r) (p0 :: p1) rep = c :: replaceFirst r (p0 :: p1) rep := by
  rw [replaceFirst]
  have hne : (c :: r).take (p0 :: p1).length ≠ p0 :: p1 := by
    rw [List.length_cons, List.take_succ_cons]
    intro h1
    injection h1 with h2 _
    exact h h2
  rw [if_neg hne]

/-! ## Tokenizer structure -/

theorem tokGo_flatten (s : List Nat) : ∀ cur, (tokGo cur s).flatten = cur ++ s := by
  induction s with
  | nil => intro cur; simp [tokGo]
  | cons c rest ih =>
      intro cur
      rw [tokGo]
      split
      · rw [ih (cur ++ [c])]; simp
      · simp [ih [c]]

theorem jsSplitTokens_flatten (s : List Nat) : (jsSplitTokens s).flatten = s := by
  cases s with
  | nil => simp [jsSplitTokens]
  | cons c rest => rw [jsSplitTokens, tokGo_flatten]; rfl

/-- Every token of `tokGo (c0 :: w0) s` starts with a character followed by a
word-character tail; the first token extends `c0`, and every later token
starts with a non-word character. -/
theorem tokGo_shape (s : List Nat) : ∀ c0 w0, WordTail w0 →
    ∃ w1 rest, tokGo (c0 :: w0) s = (c0 :: w1) :: rest ∧ WordTail w1 ∧
      ∀ t ∈ rest, ∃ c w, t = c :: w ∧ isWordCode c = false ∧ WordTail w := by
  induction s with
  | nil =>
      intro c0 w0 hw
      exact ⟨w0, [], by simp [tokGo], hw, by simp⟩
  | cons c rest ih =>
      intro c0 w0 hw
      rw [tokGo]
      by_cases hc : isWordCode c = true
      · have h1 : c0 :: w0 ++ [c] = c0 :: (w0 ++ [c]) := by simp
        rw [if_pos hc, h1]
        apply ih
        intro x hx
        rcases List.mem_append.1 hx with h | h
        · exact hw x h
        · simp at h; subst h; exact hc
      · rw [if_neg hc]
        rcases ih c [] (by simp [WordTail]) with ⟨w1, rest1, heq, hw1, hrest1⟩
        refine ⟨w0, (c :: w1) :: rest1, by rw [heq], hw, ?_⟩
        intro t ht
        rcases List.mem_cons.1 ht with rfl | ht
        · exact ⟨c, w1, rfl, by simpa using hc, hw1⟩
        · exact hrest1 t ht

/-- Every token produced by the tokenizer is empty (only for empty input) or
consists of a head character followed by word characters. -/
theorem mem_jsSplitTokens_shape {s tok : List Nat} (h : tok ∈ jsSplitTokens s) :
    tok = [] ∨ ∃ c w, tok = c :: w ∧ WordTail w := by
  cases s with
  | nil => simp [jsSplitTokens] at h; exact Or.inl h
  | cons c rest =>
      rw [jsSplitTokens] at h
      rcases tokGo_shape rest c [] (by simp [WordTail]) with ⟨w1, rest1, heq, hw1, hrest1⟩
      rw [heq] at h
      rcases List.mem_cons.1 h with rfl | h
      · exact Or.inr ⟨c, w1, rfl, hw1⟩
      · rcases hrest1 tok h with ⟨c', w', rfl, _, hw'⟩
        exact Or.inr ⟨c', w', rfl, hw'⟩

theorem tokGo_word_append {w : List Nat} (hw : WordTail w) :
    ∀ (cur s' : List Nat), tokGo cur (w ++ s') = tokGo (cur ++ w) s' := by
  induction w with
  | nil => intro cur s'; simp
  | cons a t ih =>
      intro cur s'
      have ha := hw a (List.mem_cons_self a t)
      rw [List.cons_append, tokGo, if_pos ha,
        ih (fun x hx => hw x (List.mem_cons_of_mem a hx)) (cur ++ [a]) s']
      simp

/-- A separator token: non-word head, word tail. -/
def SepTok (t : List Nat) : Prop :=
  ∃ c w, t = c :: w ∧ isWordCode c = false ∧ WordTail w

/-- Re-splitting the concatenation of separator tokens appends them after the
current token unchanged. -/
theorem tokGo_recon (toks : List (List Nat)) (hsep : ∀ t ∈ toks, SepTok t) :
    ∀ cur, tokGo cur toks.flatten = cur :: toks := by
  induction toks with
  | nil => intro cur; simp [tokGo]
  | cons t rest ih =>
      intro cur
      rcases hsep t (List.mem_cons_self t rest) with ⟨c, w, rfl, hc, hw⟩
      have hrest : ∀ t' ∈ rest, SepTok t' := fun t' h => hsep t' (List.mem_cons_of_mem _ h)
      have h1 : ((c :: w) :: rest).flatten = c :: (w ++ rest.flatten) := by simp
      rw [h1, tokGo, if_neg (by simp [hc]), tokGo_word_append hw [c] rest.flatten]
      have h2 : [c] ++ w = c :: w := rfl
      rw [h2, ih hrest (c :: w)]

/-! ## Masking a single token -/

theorem map_fix {α : Type} {f : α → α} : ∀ {l : List α}, (∀ x ∈ l, f x = x) → l.map f = l
  | [], _ => rfl
  | a :: t, h => by
      rw [List.map_cons, h a (List.mem_cons_self a t),
        map_fix (fun x hx => h x (List.mem_cons_of_mem a hx))]

theorem stripLower_word_head {c : Nat} {w : List Nat} (hc : isWordCode c = true)
    (hw : WordTail w) : stripLower (c :: w) = (c :: w).map toLowerCode := by
  unfold stripLower
  congr 1
  rw [List.filter_eq_self]
  intro a ha
  rcases List.mem_cons.1 ha with rfl | ha
  · exact hc
  · exact hw a ha

theorem stripLower_sep_head {c : Nat} {w : List Nat} (hc : isWordCode c = false)
    (hw : WordTail w) : stripLower (c :: w) = w.map toLowerCode := by
  unfold stripLower
  rw [List.filter_cons, hc]
  simp only [Bool.false_eq_true, if_false]
  congr 1
  rw [List.filter_eq_self]
  exact hw

theorem maskToken_not_banned {banned : List (List Nat)} {t : List Nat}
    (h : stripLower t ∉ banned) : maskToken banned t = t := by
  simp only [maskToken]
  rw [if_neg h]

theorem maskToken_banned_eq {banned : List (List Nat)} {c : Nat} {w : List Nat}
    (hw : WordTail w) (hmem : stripLower (c :: w) ∈ banned) (hb : [] ∉ banned) :
    maskToken banned (c :: w) = (if isWordCode c = true then [] else [c]) ++ mask4 := by
  by_cases hc : isWordCode c = true
  · rw [if_pos hc]
    simp only [maskToken]
    rw [if_pos hmem, stripLower_word_head hc hw, replaceFirst_self]
    rfl
  · have hc' : isWordCode c = false := by simpa using hc
    rw [if_neg hc]
    simp only [maskToken]
    rw [if_pos hmem]
    have hclean : stripLower (c :: w) = w.map toLowerCode := stripLower_sep_head hc' hw
    have hwne : w ≠ [] := by
      intro hnil
      subst hnil
      rw [hclean] at hmem
      exact hb hmem
    rcases w with _ | ⟨a, w'⟩
    · exact absurd rfl hwne
    · have hmapc : (c :: a :: w').map toLowerCode = c :: toLowerCode a :: w'.map toLowerCode := by
        simp [toLower_nonword hc']
      have hne : c ≠ toLowerCode a := by
        intro hcc
        have h1 : isWordCode (toLowerCode a) = true := by
          rw [toLower_word]
          exact hw a (List.mem_cons_self a w')
        rw [← hcc, hc'] at h1
        simp at h1
      rw [hmapc, hclean]
      have hmapa : (a :: w').map toLowerCode = toLowerCode a :: w'.map toLowerCode := rfl
      rw [hmapa, replaceFirst_cons_ne _ _ _ hne, ← hmapa, replaceFirst_self]
      rfl

theorem mask4_wordTail : WordTail mask4 := by
  show ∀ x ∈ mask4, isWordCode x = true
  decide

theorem maskToken_mask4_fix (banned : List (List Nat)) : maskToken banned mask4 = mask4 := by
  have hstrip : stripLower mask4 = mask4 := by decide
  by_cases hmem : stripLower mask4 ∈ banned
  · simp only [maskToken]
    rw [if_pos hmem, hstrip]
    have hlow : mask4.map toLowerCode = mask4 := by decide
    rw [hlow, replaceFirst_self]
  · exact maskToken_not_banned hmem

theorem maskToken_sep_mask4_fix {banned : List (List Nat)} {d : Nat}
    (hd : isWordCode d = false) : maskToken banned (d :: mask4) = d :: mask4 := by
  have hstrip : stripLower (d :: mask4) = mask4 := by
    rw [stripLower_sep_head hd mask4_wordTail]
    decide
  by_cases hmem : stripLower (d :: mask4) ∈ banned
  · simp only [maskToken]
    rw [if_pos hmem, hstrip]
    have hmap : (d :: mask4).map toLowerCode = d :: mask4 := by
      have : mask4.map toLowerCode = mask4 := by decide
      simp [toLower_nonword hd, this]
    rw [hmap]
    have hm : mask4 = 95 :: [95, 95, 95] := rfl
    have hne : d ≠ 95 := by
      intro hdd
      rw [hdd] at hd
      simp [isWordCode] at hd
    rw [hm, replaceFirst_cons_ne _ _ _ hne, ← hm, replaceFirst_self]
  · exact maskToken_not_banned hmem

/-- Applying the mask to a token, then the whitespace normalization, yields a
token of the same head word-class that the mask step leaves unchanged. -/
theorem masked_norm_props (banned : List (List Nat)) (hb : [] ∉ banned) (c : Nat)
    (w : List Nat) (hw : WordTail w) :
    ∃ c1 w1, (maskToken banned (c :: w)).map normChar = c1 :: w1 ∧
      isWordCode c1 = isWordCode c ∧ WordTail w1 ∧
      maskToken banned (c1 :: w1) = c1 :: w1 := by
  by_cases hmem : stripLower (c :: w) ∈ banned
  · rw [maskToken_banned_eq hw hmem hb]
    by_cases hc : isWordCode c = true
    · rw [if_pos hc]
      refine ⟨95, [95, 95, 95], by decide, by rw [hc]; decide, ?_, ?_⟩
      · show ∀ x ∈ [95, 95, 95], isWordCode x = true
        decide
      · exact maskToken_mask4_fix banned
    · have hc' : isWordCode c = false := by simpa using hc
      rw [if_neg hc]
      have hnorm : ([c] ++ mask4).map normChar = normChar c :: mask4 := by
        have : mask4.map normChar = mask4 := by decide
        simp [this]
      have hd : isWordCode (normChar c) = false := by rw [normChar_word, hc']
      exact ⟨normChar c, mask4, hnorm, by rw [normChar_word], mask4_wordTail,
        maskToken_sep_mask4_fix hd⟩
  · rw [maskToken_not_banned hmem]
    have hnorm : (c :: w).map normChar = normChar c :: w := by
      rw [List.map_cons, wordTail_norm_fix hw]
    have hstrip : stripLower (normChar c :: w) = stripLower (c :: w) := by
      by_cases hc : isWordCode c = true
      · rw [normChar_of_word hc]
      · have hc' : isWordCode c = false := by simpa using hc
        have hd : isWordCode (normChar c) = false := by rw [normChar_word, hc']
        rw [stripLower_sep_head hd hw, stripLower_sep_head hc' hw]
    refine ⟨normChar c, w, hnorm, normChar_word c, hw, ?_⟩
    apply maskToken_not_banned
    rw [hstrip]
    exact hmem

theorem redact_tokens (banned : List (List Nat)) (text : List Nat) :
    redact banned text =
      ((jsSplitTokens text).map (fun t => (maskToken banned t).map normChar)).flatten := by
  rw [redact, maskStep, normalizeWs, List.map_flatten, List.map_map]
  rfl

/-- The split-mask-join step leaves an already redacted text unchanged,
provided no banned word is the empty string. -/
theorem redact_fixed (banned : List (List Nat)) (text : List Nat) (hb : [] ∉ banned) :
    maskStep banned (redact banned text) = redact banned text := by
  cases text with
  | nil =>
      have hmt : maskToken banned [] = [] := maskToken_not_banned (by simpa [stripLower] using hb)
      simp [redact, maskStep, jsSplitTokens, normalizeWs, hmt]
  | cons c r =>
      rcases tokGo_shape r c [] (fun x hx => absurd hx (List.not_mem_nil x)) with
        ⟨w1, rest, heq, hw1, hrest⟩
      have hsplit : jsSplitTokens (c :: r) = (c :: w1) :: rest := heq
      rcases masked_norm_props banned hb c w1 hw1 with ⟨c1, ww1, hF1, _, hW, hfix1⟩
      have hsepfix : ∀ u ∈ rest.map (fun t => (maskToken banned t).map normChar),
          SepTok u ∧ maskToken banned u = u := by
        intro u hu
        rcases List.mem_map.1 hu with ⟨t, ht, rfl⟩
        rcases hrest t ht with ⟨ct, wt, rfl, hct, hwt⟩
        rcases masked_norm_props banned hb ct wt hwt with ⟨d, v, hFd, hdw, hv, hfixd⟩
        rw [hFd]
        exact ⟨⟨d, v, rfl, by rw [hdw, hct], hv⟩, hfixd⟩
      have hL : ∀ u ∈ rest.map (fun t => (maskToken banned t).map normChar), SepTok u :=
        fun u hu => (hsepfix u hu).1
      rw [redact_tokens, hsplit, List.map_cons, List.flatten_cons, hF1]
      have hcons : (c1 :: ww1) ++ (rest.map (fun t => (maskToken banned t).map normChar)).flatten
          = c1 :: (ww1 ++ (rest.map (fun t => (maskToken banned t).map normChar)).flatten) := rfl
      rw [hcons]
      unfold maskStep
      simp only [jsSplitTokens]
      rw [tokGo_word_append hW [c1] _]
      have h2 : [c1] ++ ww1 = c1 :: ww1 := rfl
      rw [h2, tokGo_recon _ hL (c1 :: ww1), List.map_cons, hfix1,
        map_fix (fun u hu => (hsepfix u hu).2), List.flatten_cons]
      exact hcons

/-! ## Sampling is a permutation prefix -/

theorem cons_get_set_perm {α : Type} : ∀ (t : List α) (m : Nat) (h : m < t.length) (b : α),
    List.Perm (t.get ⟨m, h⟩ :: t.set m b) (b :: t) := by
  intro t
  induction t with
  | nil => intro m h b; simp at h
  | cons c t' ih =>
      intro m h b
      cases m with
      | zero => exact List.Perm.swap b c t'
      | succ k =>
          have hk : k < t'.length := by simpa using h
          have hget : (c :: t').get ⟨k + 1, h⟩ = t'.get ⟨k, hk⟩ := rfl
          have hset : (c :: t').set (k + 1) b = c :: t'.set k b := rfl
          rw [hget, hset]
          exact ((List.Perm.swap c _ _).trans ((ih k hk b).cons c)).trans (List.Perm.swap b c t')

theorem set_set_perm {α : Type} : ∀ (l : List α) (i j : Nat) (hi : i < l.length)
    (hj : j < l.length), List.Perm ((l.set i (l.get ⟨j, hj⟩)).set j (l.get ⟨i, hi⟩)) l := by
  intro l
  induction l with
  | nil => intro i j hi _; simp at hi
  | cons a t ih =>
      intro i j hi hj
      cases i with
      | zero =>
          cases j with
          | zero => exact List.Perm.refl _
          | succ m => exact cons_get_set_perm t m (by simpa using hj) a
      | succ k =>
          cases j with
          | zero => exact cons_get_set_perm t k (by simpa using hi) a
          | succ m => exact ((ih k m (by simpa using hi) (by simpa using hj)).cons a)

theorem listSwap_perm {α : Type} (l : List α) (i j : Nat) :
    List.Perm (listSwap l i j) l := by
  unfold listSwap
  split
  · rename_i h
    exact set_set_perm l i j h.1 h.2
  · exact List.Perm.refl l

theorem fySteps_perm {α : Type} (rand : Nat → Nat) : ∀ (k i : Nat) (l : List α),
    List.Perm (fySteps rand i k l) l := by
  intro k
  induction k with
  | zero => intro i l; exact List.Perm.refl l
  | succ k ih => intro i l; exact (ih (i + 1) _).trans (listSwap_perm l i _)

theorem sampleSize_length {α : Type} (rand : Nat → Nat) (l : List α) (n : Nat) :
    (sampleSize rand l n).length = min n l.length := by
  unfold sampleSize
  rw [List.length_take, (fySteps_perm rand (min n l.length) 0 l).length_eq]
  omega

theorem sampleSize_nodup {α : Type} (rand : Nat → Nat) (l : List α) (n : Nat)
    (h : l.Nodup) : (sampleSize rand l n).Nodup := by
  unfold sampleSize
  exact List.Nodup.sublist (List.take_sublist _ _)
    ((fySteps_perm rand (min n l.length) 0 l).symm.nodup h)

/-! ## The id pool -/

theorem genEntry_endId (i : Nat) : (genEntry i).endId = maxDexAt i := by
  unfold genEntry maxDexAt
  rcases hg : gameGenerations.get? i with _ | g <;> simp [hg]

theorem genEntry_startId (i : Nat) :
    (genEntry i).startId = (if i = 0 then 0 else maxDexAt (i - 1)) + 1 := rfl

theorem genEntry_availableIds (i : Nat) : (genEntry i).availableIds =
    List.range' ((genEntry i).startId) ((genEntry i).endId + 1 - (genEntry i).startId) := rfl

theorem startId_le_endId : ∀ i < 9, (genEntry i).startId ≤ (genEntry i).endId + 1 := by decide

theorem endId_lt_startId : ∀ i < 9, ∀ j < 9, i < j →
    (genEntry i).endId < (genEntry j).startId := by decide

theorem mem_availableIds {i a : Nat} (h : i < 9) :
    a ∈ (genEntry i).availableIds ↔ (genEntry i).startId ≤ a ∧ a ≤ (genEntry i).endId := by
  have h1 := startId_le_endId i h
  rw [genEntry_availableIds, List.mem_range'_1]
  omega

theorem availableIds_nodup (i : Nat) : (genEntry i).availableIds.Nodup := by
  rw [genEntry_availableIds]
  exact List.nodup_range' _ _

theorem availableIds_disjoint {i j : Nat} (hi : i < 9) (hj : j < 9) (hne : i ≠ j) :
    ∀ a : Nat, a ∈ (genEntry i).availableIds → a ∈ (genEntry j).availableIds → False := by
  intro a hai haj
  rw [mem_availableIds hi] at hai
  rw [mem_availableIds hj] at haj
  rcases Nat.lt_or_ge i j with hij | hij
  · have := endId_lt_startId i hi j hj hij
    omega
  · have hji : j < i := by omega
    have := endId_lt_startId j hj i hi hji
    omega

theorem flatMap_avail_nodup : ∀ included : List Nat, included.Nodup →
    (∀ i ∈ included, i < 9) →
    ((included.map genEntry).flatMap GenInfo.availableIds).Nodup := by
  intro included
  induction included with
  | nil => intro _ _; simp
  | cons i rest ih =>
      intro hnd hv
      rw [List.map_cons, List.flatMap_cons, List.nodup_append]
      refine ⟨availableIds_nodup i,
        ih hnd.of_cons (fun x hx => hv x (List.mem_cons_of_mem _ hx)), ?_⟩
      intro a ha hb
      rcases List.mem_flatMap.1 hb with ⟨g, hg, hag⟩
      rcases List.mem_map.1 hg with ⟨j, hj, rfl⟩
      have hij : i ≠ j := by
        intro hh
        subst hh
        exact (List.nodup_cons.1 hnd).1 hj
      exact availableIds_disjoint (hv i (List.mem_cons_self i rest))
        (hv j (List.mem_cons_of_mem _ hj)) hij a ha hag

theorem idPool_nodup (s : Settings) (hnd : s.includedGenerations.Nodup)
    (hv : ∀ i ∈ s.includedGenerations, i < gameGenerations.length) : (idPool s).Nodup := by
  unfold idPool generations
  exact flatMap_avail_nodup _ hnd hv

/-! ## The generation toggle invariant -/

theorem toggleGeneration_nodup {g : List Nat} {i : Nat} (h : g.Nodup) :
    (toggleGeneration g i).Nodup := by
  simp only [toggleGeneration]
  by_cases hmem : i ∈ g
  · rw [if_pos hmem]
    exact (List.perm_insertionSort _ _).symm.nodup (h.filter _)
  · rw [if_neg hmem]
    refine (List.perm_insertionSort _ _).symm.nodup ?_
    rw [List.nodup_append]
    refine ⟨h, List.nodup_singleton i, ?_⟩
    intro a ha hb
    simp at hb
    subst hb
    exact hmem ha

theorem toggleGeneration_ne_nil {g : List Nat} {i : Nat} (hnd : g.Nodup) (hne : g ≠ [])
    (hguard : ¬(g.length = 1 ∧ i ∈ g)) : toggleGeneration g i ≠ [] := by
  simp only [toggleGeneration]
  by_cases hmem : i ∈ g
  · rw [if_pos hmem]
    have hlen2 : 2 ≤ g.length := by
      rcases g with _ | ⟨a, _ | ⟨b, t⟩⟩
      · exact absurd rfl hne
      · exact absurd ⟨rfl, hmem⟩ hguard
      · simp
    rcases g with _ | ⟨a, _ | ⟨b, t⟩⟩
    · exact absurd rfl hne
    · simp at hlen2
    · have hab : a ≠ b := by
        intro h
        subst h
        exact (List.nodup_cons.1 hnd).1 (List.mem_cons_self a t)
      have hex : ∃ x ∈ a :: b :: t, (x != i) = true := by
        by_cases hai : a = i
        · subst hai
          refine ⟨b, List.mem_cons_of_mem _ (List.mem_cons_self b t), ?_⟩
          simp [bne]
          exact fun h => hab h.symm
        · exact ⟨a, List.mem_cons_self _ _, by simp [bne, hai]⟩
      rcases hex with ⟨x, hx, hxi⟩
      have hxf : x ∈ (a :: b :: t).filter (fun y => y != i) :=
        List.mem_filter.2 ⟨hx, hxi⟩
      intro hnil
      have hperm := List.perm_insertionSort (fun a b => a ≤ b)
        ((a :: b :: t).filter (fun y => y != i))
      rw [hnil] at hperm
      exact List.ne_nil_of_mem hxf hperm.nil_eq.symm
  · rw [if_neg hmem]
    intro hnil
    have hperm := List.perm_insertionSort (fun a b => a ≤ b) (g ++ [i])
    rw [hnil] at hperm
    have := hperm.length_eq
    simp at this

theorem uiToggle_preserves (g : List Nat) (i : Nat) (h : g.Nodup ∧ g ≠ []) :
    (uiToggleGeneration g i).Nodup ∧ uiToggleGeneration g i ≠ [] := by
  unfold uiToggleGeneration
  split
  · exact h
  · rename_i hguard
    exact ⟨toggleGeneration_nodup h.1, toggleGeneration_ne_nil h.1 h.2 hguard⟩

theorem reachable_invariant {g : List Nat} (h : ReachableGens g) : g.Nodup ∧ g ≠ [] := by
  induction h with
  | start => exact ⟨by decide, by decide⟩
  | toggle g i _ ih => exact uiToggle_preserves g i ih

/-! ## The reveal action -/

theorem reveal_get_aux : ∀ (data : List PokeData) (pid : Nat),
    (data.map PokeData.id).Nodup → ∀ (j : Nat) (e : PokeData), data.get? j = some e →
    (reveal data pid).get? j =
      some (if e.id = pid then { e with revealed := true } else e) := by
  intro data
  induction data with
  | nil => intro pid _ j e hj; simp at hj
  | cons a rest ih =>
      intro pid hnd j e hj
      have hnd' : (a.id :: rest.map PokeData.id).Nodup := by simpa using hnd
      by_cases ha : a.id = pid
      · have hrw : reveal (a :: rest) pid = { a with revealed := true } :: rest := by
          rw [reveal, if_pos ha]
        rw [hrw]
        cases j with
        | zero =>
            simp only [List.get?_cons_zero, Option.some.injEq] at hj
            subst hj
            simp [ha]
        | succ k =>
            simp only [List.get?_cons_succ] at hj ⊢
            have hein : e.id ∈ rest.map PokeData.id :=
              List.mem_map_of_mem PokeData.id (List.get?_mem hj)
            have hne : e.id ≠ pid := by
              intro hh
              rw [hh, ← ha] at hein
              exact (List.nodup_cons.1 hnd').1 hein
            rw [if_neg hne]
            exact hj
      · have hrw : reveal (a :: rest) pid = a :: reveal rest pid := by
          rw [reveal, if_neg ha]
        rw [hrw]
        cases j with
        | zero =>
            simp only [List.get?_cons_zero, Option.some.injEq] at hj
            subst hj
            simp [ha]
        | succ k =>
            simp only [List.get?_cons_succ] at hj ⊢
            exact ih pid (List.nodup_cons.1 hnd').2 k e hj

theorem reveal_idem : ∀ (data : List PokeData) (pid : Nat),
    reveal (reveal data pid) pid = reveal data pid := by
  intro data
  induction data with
  | nil => intro pid; rfl
  | cons a rest ih =>
      intro pid
      by_cases ha : a.id = pid
      · rw [reveal, if_pos ha, reveal, if_pos ha]
      · rw [reveal, if_neg ha, reveal, if_neg ha, ih]

theorem reveal_mono : ∀ (data : List PokeData) (q j : Nat) (e : PokeData),
    data.get? j = some e → e.revealed = true → (reveal data q).get? j = some e := by
  intro data
  induction data with
  | nil => intro q j e hj _; simp at hj
  | cons a rest ih =>
      intro q j e hj hrev
      by_cases ha : a.id = q
      · rw [reveal, if_pos ha]
        cases j with
        | zero =>
            simp only [List.get?_cons_zero, Option.some.injEq] at hj
            subst hj
            have he : { a with revealed := true } = a := by
              cases a
              simp_all
            rw [List.get?_cons_zero, he]
        | succ k =>
            simp only [List.get?_cons_succ] at hj ⊢
            exact hj
      · rw [reveal, if_neg ha]
        cases j with
        | zero => simpa using hj
        | succ k =>
            simp only [List.get?_cons_succ] at hj ⊢
            exact ih q k e hj hrev

/-! ## Claims -/

/-- C1: for every settings value with `rounds ∈ [1,10]`,
`pokemonPerRound ∈ [1,6]` and a non-empty generation selection, `fetchGame`
produces exactly `rounds * pokemonPerRound` entities, provided the pool of
eligible ids of the included generations holds at least that many ids. -/
theorem C1_entity_count (rand : Nat → Nat) (api : Nat → ApiRecord)
    (bannedWordSet : List (List Nat)) (s : Settings)
    (h1 : 1 ≤ s.rounds) (h2 : s.rounds ≤ 10)
    (h3 : 1 ≤ s.pokemonPerRound) (h4 : s.pokemonPerRound ≤ 6)
    (h5 : s.includedGenerations ≠ [])
    (hpool : s.rounds * s.pokemonPerRound ≤ (idPool s).length) :
    (fetchGame rand api bannedWordSet s).length = s.rounds * s.pokemonPerRound := by
  unfold fetchGame sampledIds
  rw [List.length_map, List.length_map, sampleSize_length]
  omega

set_option maxRecDepth 10000 in
theorem C1_entity_count_witness :
    (fetchGame (fun _ => 0)
      (fun n => { id := n, name := [], flavor_text_entries := [], front_default := none })
      [] { rounds := 1, pokemonPerRound := 1, includedGenerations := [0] }).length = 1 * 1 :=
  C1_entity_count _ _ _ _ (by decide) (by decide) (by decide) (by decide)
    (by decide) (by decide)

/-- C2: the sampled ids are pairwise distinct (sampling is without
replacement from the disjoint union of the allowed id ranges), so no two
entities of the generated set share an id. -/
theorem C2_ids_distinct (rand : Nat → Nat) (api : Nat → ApiRecord)
    (bannedWordSet : List (List Nat)) (s : Settings)
    (hnd : s.includedGenerations.Nodup)
    (hv : ∀ i ∈ s.includedGenerations, i < gameGenerations.length)
    (hapi : ∀ n : Nat, (api n).id = n) :
    (sampledIds rand s).Nodup ∧
      ((fetchGame rand api bannedWordSet s).map PokeData.id).Nodup := by
  have hpool := idPool_nodup s hnd hv
  have hids : (sampledIds rand s).Nodup := sampleSize_nodup _ _ _ hpool
  refine ⟨hids, ?_⟩
  unfold fetchGame
  rw [List.map_map, List.map_map]
  have hcomp : (sampledIds rand s).map ((PokeData.id ∘ cleanRecord bannedWordSet) ∘ api) =
      (sampledIds rand s).map (fun n => n) :=
    List.map_congr_left (fun a _ => hapi a)
  rw [hcomp]
  simpa using hids

theorem C2_ids_distinct_witness :
    (sampledIds (fun _ => 0) { rounds := 1, pokemonPerRound := 1, includedGenerations := [0] }).Nodup ∧
      ((fetchGame (fun _ => 0)
        (fun n => { id := n, name := [], flavor_text_entries := [], front_default := none })
        [] { rounds := 1, pokemonPerRound := 1, includedGenerations := [0] }).map PokeData.id).Nodup :=
  C2_ids_distinct _ _ _ _ (by decide) (by decide) (fun _ => rfl)

/-- C3: the redaction step is idempotent on its own output: re-running the
per-token mask step (and the whole redaction) on already redacted text
leaves it unchanged, the banned words being entity names and hence
non-empty. -/
theorem C3_redaction_idempotent (bannedWordSet : List (List Nat)) (text : List Nat)
    (hb : [] ∉ bannedWordSet) :
    maskStep bannedWordSet (redact bannedWordSet text) = redact bannedWordSet text ∧
      redact bannedWordSet (redact bannedWordSet text) = redact bannedWordSet text := by
  have h1 := redact_fixed bannedWordSet text hb
  refine ⟨h1, ?_⟩
  show normalizeWs (maskStep bannedWordSet (redact bannedWordSet text)) = _
  rw [h1]
  unfold redact normalizeWs
  rw [List.map_map]
  exact List.map_congr_left (fun a _ => normChar_idem a)

theorem C3_redaction_idempotent_witness :
    maskStep [strToCodes ("slowbro")]
        (redact [strToCodes ("slowbro")] (strToCodes ("Slowbro is lazy."))) =
      redact [strToCodes ("slowbro")] (strToCodes ("Slowbro is lazy.")) ∧
    redact [strToCodes ("slowbro")]
        (redact [strToCodes ("slowbro")] (strToCodes ("Slowbro is lazy."))) =
      redact [strToCodes ("slowbro")] (strToCodes ("Slowbro is lazy.")) :=
  C3_redaction_idempotent _ _ (by decide)

/-- C4: with banned set `{"slowbro"}`, redacting `"Slowbro is lazy."`
produces exactly `"____ is lazy."`: the mask replaces only the span matching
the banned name, case-insensitively, keeping trailing punctuation. -/
theorem C4_slowbro_example :
    redact [strToCodes ("slowbro")] (strToCodes ("Slowbro is lazy.")) =
      strToCodes ("____ is lazy.") := by decide

/-- C5: a token whose stripped lower-cased form is banned has that stripped
span replaced by the fixed 4-underscore mask with its non-word characters
kept; any other token is emitted unchanged. -/
theorem C5_token_masking (text : List Nat) (bannedWordSet : List (List Nat))
    (tok : List Nat) (htok : tok ∈ jsSplitTokens text) (hb : [] ∉ bannedWordSet) :
    (stripLower tok ∉ bannedWordSet → maskToken bannedWordSet tok = tok) ∧
      (stripLower tok ∈ bannedWordSet →
        maskToken bannedWordSet tok = tok.filter (fun x => !isWordCode x) ++ mask4 ∧
          mask4.length = 4 ∧ ∀ x ∈ mask4, x = 95) := by
  refine ⟨fun h => maskToken_not_banned h, fun hmem => ?_⟩
  refine ⟨?_, by decide, by decide⟩
  rcases mem_jsSplitTokens_shape htok with rfl | ⟨c, w, rfl, hw⟩
  · exact absurd hmem hb
  · rw [maskToken_banned_eq hw hmem hb]
    congr 1
    rw [List.filter_cons]
    have hfw : w.filter (fun x => !isWordCode x) = [] := by
      rw [List.filter_eq_nil_iff]
      intro a ha
      simp [hw a ha]
    by_cases hc : isWordCode c = true
    · rw [if_pos hc]
      simp [hc, hfw]
    · have hc' : isWordCode c = false := by simpa using hc
      rw [if_neg hc]
      simp [hc', hfw]

theorem C5_token_masking_witness :
    (stripLower (strToCodes ("Slowbro")) ∉ [strToCodes ("slowbro")] →
      maskToken [strToCodes ("slowbro")] (strToCodes ("Slowbro")) = strToCodes ("Slowbro")) ∧
      (stripLower (strToCodes ("Slowbro")) ∈ [strToCodes ("slowbro")] →
        maskToken [strToCodes ("slowbro")] (strToCodes ("Slowbro")) =
            (strToCodes ("Slowbro")).filter (fun x => !isWordCode x) ++ mask4 ∧
          mask4.length = 4 ∧ ∀ x ∈ mask4, x = 95) :=
  C5_token_masking (strToCodes ("Slowbro is lazy.")) _ _ (by decide) (by decide)

/-- C6, counterexample: the final `.replace(/[\s\n]/g, " ")` replaces each
whitespace character by one space but does not collapse runs: on input
`"a  b"` the redacted output still holds two consecutive spaces
(positions 1 and 2), contradicting "no run of consecutive whitespace
characters longer than one space". -/
theorem C6_counterexample :
    redact [] (strToCodes ("a  b")) = strToCodes ("a  b") ∧
      (redact [] (strToCodes ("a  b"))).get? 1 = some 32 ∧
      (redact [] (strToCodes ("a  b"))).get? 2 = some 32 := by decide

/-- C6, amended: every whitespace or newline character of the rejoined text
is replaced by a single space character, so the result holds no newline and
no whitespace other than the space character; runs of whitespace survive as
equally long runs of spaces. -/
theorem C6_whitespace_amended (bannedWordSet : List (List Nat)) (text : List Nat) :
    redact bannedWordSet text = (maskStep bannedWordSet text).map normChar ∧
      ∀ c ∈ redact bannedWordSet text, c ≠ 10 ∧ (isSpaceCode c = true → c = 32) := by
  have hr : redact bannedWordSet text = (maskStep bannedWordSet text).map normChar := rfl
  refine ⟨hr, ?_⟩
  intro c hc
  rw [hr] at hc
  rcases List.mem_map.1 hc with ⟨d, _, rfl⟩
  exact ⟨normChar_not_newline d, fun h => normChar_space_eq h⟩

/-- C7: each included generation index expands to the closed id interval
from the prior entry's `maxDex + 1` (1 for index 0) through its own
`maxDex`, and `availableIds` enumerates exactly that interval. -/
theorem C7_generation_ranges (included : List Nat) (genIdx : Nat)
    (hmem : genIdx ∈ included) (hv : genIdx < gameGenerations.length) :
    ∃ g ∈ generations included,
      g.startId = (if genIdx = 0 then 1 else maxDexAt (genIdx - 1) + 1) ∧
      g.endId = maxDexAt genIdx ∧
      ∀ n : Nat, n ∈ g.availableIds ↔ (g.startId ≤ n ∧ n ≤ g.endId) := by
  refine ⟨genEntry genIdx, List.mem_map.2 ⟨genIdx, hmem, rfl⟩, ?_,
    genEntry_endId genIdx, fun n => mem_availableIds hv⟩
  rw [genEntry_startId]
  by_cases h0 : genIdx = 0
  · rw [if_pos h0, if_pos h0]
  · rw [if_neg h0, if_neg h0]

theorem C7_generation_ranges_witness :
    ∃ g ∈ generations [2],
      g.startId = (if 2 = 0 then 1 else maxDexAt (2 - 1) + 1) ∧
      g.endId = maxDexAt 2 ∧
      ∀ n : Nat, n ∈ g.availableIds ↔ (g.startId ≤ n ∧ n ≤ g.endId) :=
  C7_generation_ranges [2] 2 (by decide) (by decide)

/-- C8: a reachable settings state never has an empty generation selection,
a UI toggle keeps it non-empty, and toggling off the only remaining included
generation is rejected, leaving the state unchanged. -/
theorem C8_generations_never_empty (g : List Nat) (i : Nat) (h : ReachableGens g) :
    g ≠ [] ∧ uiToggleGeneration g i ≠ [] ∧
      ((g.length = 1 ∧ i ∈ g) → uiToggleGeneration g i = g) := by
  have hinv := reachable_invariant h
  refine ⟨hinv.2, (uiToggle_preserves g i hinv).2, fun hcond => ?_⟩
  unfold uiToggleGeneration
  rw [if_pos hcond]

theorem C8_generations_never_empty_witness :
    [0, 1, 2, 3, 4, 5, 6, 7, 8] ≠ [] ∧
      uiToggleGeneration [0, 1, 2, 3, 4, 5, 6, 7, 8] 3 ≠ [] ∧
      (([0, 1, 2, 3, 4, 5, 6, 7, 8].length = 1 ∧ 3 ∈ [0, 1, 2, 3, 4, 5, 6, 7, 8]) →
        uiToggleGeneration [0, 1, 2, 3, 4, 5, 6, 7, 8] 3 = [0, 1, 2, 3, 4, 5, 6, 7, 8]) :=
  C8_generations_never_empty _ 3 ReachableGens.start

/-- C9: revealing an entity id sets that entity's `revealed` flag and leaves
every other entity (and every other field) unchanged; the transition is
idempotent and no reveal operation turns a revealed entity back to hidden. -/
theorem C9_reveal_frame (data : List PokeData) (pid q j : Nat) (e : PokeData)
    (hnd : (data.map PokeData.id).Nodup) (hmem : pid ∈ data.map PokeData.id)
    (hj : data.get? j = some e) :
    (reveal data pid).get? j =
        some (if e.id = pid then { e with revealed := true } else e) ∧
      reveal (reveal data pid) pid = reveal data pid ∧
      (e.revealed = true → (reveal data q).get? j = some e) :=
  ⟨reveal_get_aux data pid hnd j e hj, reveal_idem data pid,
    fun hrev => reveal_mono data q j e hj hrev⟩

theorem C9_reveal_frame_witness :
    (reveal [pokeA, pokeB] 80).get? 0 =
        some (if pokeA.id = 80 then { pokeA with revealed := true } else pokeA) ∧
      reveal (reveal [pokeA, pokeB] 80) 80 = reveal [pokeA, pokeB] 80 ∧
      (pokeA.revealed = true → (reveal [pokeA, pokeB] 25).get? 0 = some pokeA) :=
  C9_reveal_frame [pokeA, pokeB] 80 25 0 pokeA (by decide) (by decide) (by decide)

/-- C10: when a fetched record has no flavor-text entry tagged `"en"`, the
round generator still produces an entity, whose redacted flavor is the
pipeline applied to the default empty text, i.e. the empty string. -/
theorem C10_missing_english_flavor (bannedWordSet : List (List Nat)) (s : ApiRecord)
    (hen : findEnEntry s.flavor_text_entries = none) (hb : [] ∉ bannedWordSet) :
    (cleanRecord bannedWordSet s).flavor = redact bannedWordSet [] ∧
      (cleanRecord bannedWordSet s).flavor = [] := by
  have h1 : (cleanRecord bannedWordSet s).flavor = redact bannedWordSet [] := by
    simp only [cleanRecord]
    rw [hen]
    rfl
  refine ⟨h1, ?_⟩
  rw [h1]
  have hmt : maskToken bannedWordSet [] = [] :=
    maskToken_not_banned (by simpa [stripLower] using hb)
  simp [redact, maskStep, jsSplitTokens, normalizeWs, hmt]

theorem C10_missing_english_flavor_witness :
    (cleanRecord [[97]] germanOnlyRecord).flavor = redact [[97]] [] ∧
      (cleanRecord [[97]] germanOnlyRecord).flavor = [] :=
  C10_missing_english_flavor _ _ (by decide) (by decide)
